import Mathlib

/-!
Verification of the filter-declaration core of `fastapi_filter/base/filter.py`.

The Python module is shallowly embedded below: each function of the source is
translated into an executable Lean definition over explicit data types
(`PyVal` for the runtime values flowing through the pydantic validators,
`PyTy`/`PyDefault`/`FieldInfo` for the static field descriptors inspected by
the schema adapter).  Fallible Python code (raising `ValueError`,
`AttributeError`, pydantic `ValidationError`) is modelled with `Except`.
-/

set_option linter.unusedVariables false

namespace FastapiFilter

/-! ## Python string primitives used by the source -/

/-- Whitespace characters recognised by Python `str.strip` (ASCII range). -/
def pyIsSpace (c : Char) : Bool :=
  c = ' ' || c = '\t' || c = '\n' || c = '\r' || c = Char.ofNat 11 || c = Char.ofNat 12

/-- Embedding of Python `s.strip()`: drop whitespace from both ends. -/
def pyStrip (s : String) : String :=
  ⟨((s.data.dropWhile pyIsSpace).reverse.dropWhile pyIsSpace).reverse⟩

/-- Embedding of Python `sep.join(parts)`. -/
def pyJoin (sep : String) : List String → String
  | [] => ""
  | [s] => s
  | s :: rest => s ++ sep ++ pyJoin sep rest

/-- Worker for `pySplit`: accumulates the current chunk (reversed). -/
def pySplitRun (c : Char) : List Char → List Char → List String
  | [], acc => [⟨acc.reverse⟩]
  | x :: xs, acc =>
    if x = c then ⟨acc.reverse⟩ :: pySplitRun c xs [] else pySplitRun c xs (x :: acc)

/-- Embedding of Python `s.split(c)` for a one-character separator. -/
def pySplit (c : Char) (s : String) : List String := pySplitRun c s.data []

/-- Embedding of `field_name_with_direction.replace("-", "").replace("+", "")`
(line 105 of the source): removing every occurrence of the two characters. -/
def pyBase (t : String) : String := ⟨t.data.filter (fun c => !(c = '-' || c = '+'))⟩

/-- Lexicographic (code-point) comparison of character lists, as Python
compares strings. -/
def lexLeB : List Char → List Char → Bool
  | [], _ => true
  | _ :: _, [] => false
  | a :: as, b :: bs => if a = b then lexLeB as bs else decide (a < b)

/-- Python string `<=` (lexicographic by code point). -/
def pyLe (a b : String) : Prop := lexLeB a.data b.data = true

instance : DecidableRel pyLe := fun a b => instDecidableEqBool _ _

/-- Embedding of Python `sorted` on a list of strings. -/
def sortStr (l : List String) : List String := List.insertionSort pyLe l

/-! ## Runtime values seen by the field validators -/

/-- The runtime values that can reach the two `mode="before"` validators. -/
inductive PyVal
  | noneV
  | intV (n : Int)
  | strV (s : String)
  | listV (l : List String)
deriving DecidableEq

/-- Python truthiness test `not value` for the values of `PyVal`. -/
def PyVal.falsy : PyVal → Bool
  | .noneV => true
  | .intV n => n = 0
  | .strV s => s = ""
  | .listV l => l.isEmpty

/-- Iterating a Python value with `for x in value`: a list yields its items, a
string yields its characters (as one-character strings), anything else raises
`TypeError`. -/
def PyVal.tokens : PyVal → Option (List String)
  | .listV l => some l
  | .strV s => some (s.data.map String.singleton)
  | _ => none

/-! ## The two ordering validators of `BaseFilterModel` -/

/-- Embedding of `BaseFilterModel.strip_order_by_values` (source lines 77-91):
a `mode="before"` validator on every field that, on the ordering field,
normalises falsy input to `None` and otherwise trims every token, dropping
the ones that become empty.  Every other field passes through unchanged. -/
def strip_order_by_values (ordName fieldName : String) (value : PyVal) :
    Except String PyVal :=
  if fieldName ≠ ordName then .ok value
  else if value.falsy then .ok .noneV
  else
    match value.tokens with
    | some toks => .ok (.listV ((toks.map pyStrip).filter (fun s => s ≠ "")))
    | none => .error "TypeError: value is not iterable"

/-- The `field_name_usages` `defaultdict(list)` of `validate_order_by`: an
insertion-ordered association list; `addUsage u b t` is
`field_name_usages[b].append(t)`. -/
def addUsage : List (String × List String) → String → String →
    List (String × List String)
  | [], b, t => [(b, [t])]
  | (k, ts) :: rest, b, t =>
    if k = b then (k, ts ++ [t]) :: rest else (k, ts) :: addUsage rest b t

/-- Dictionary lookup `field_name_usages[b]` (empty for an absent key). -/
def getU : List (String × List String) → String → List String
  | [], _ => []
  | p :: rest, b => if p.1 = b then p.2 else getU rest b

/-- The token loop of `validate_order_by` (source lines 104-112): for every
token, remove the direction characters, raise `ValueError` if the result is
not an attribute of `Constants.model` (modelled as the list `attrs` of the
model's attribute names), and record the usage. -/
def order_by_loop (attrs : List String) :
    List String → List (String × List String) →
    Except String (List (String × List String))
  | [], u => .ok u
  | t :: rest, u =>
    if pyBase t ∈ attrs then order_by_loop attrs rest (addUsage u (pyBase t) t)
    else .error (pyBase t ++ " is not a valid ordering field.")

/-- The usages map produced by a run of the loop that raises nothing. -/
def buildUsages (u : List (String × List String)) (l : List String) :
    List (String × List String) :=
  l.foldl (fun u t => addUsage u (pyBase t) t) u

/-- Embedding of `BaseFilterModel.validate_order_by` (source lines 93-127).
On the ordering field it passes falsy input through as `None`, raises on the
first token whose de-marked name is not a model attribute, and, if any base
name was used more than once, raises a single error listing the usages of
every duplicated base name, base names sorted, usages in input order. -/
def validate_order_by (attrs : List String) (ordName fieldName : String)
    (value : PyVal) : Except String PyVal :=
  if fieldName ≠ ordName then .ok value
  else if value.falsy then .ok .noneV
  else
    match value.tokens with
    | none => .error "TypeError: value is not iterable"
    | some toks =>
      match order_by_loop attrs toks [] with
      | .error e => .error e
      | .ok u =>
        let dups := (u.filter (fun p => 1 < p.2.length)).map Prod.fst
        if dups.isEmpty then .ok value
        else
          .error ("Field names can appear at most once for " ++ ordName ++
            ". The following was ambiguous: " ++
            pyJoin ", " ((sortStr dups).flatMap (getU u)) ++ ".")

/-- Both `mode="before"` validators applied to the ordering field in their
definition order: strip, then validate. -/
def processOrderBy (attrs : List String) (ordName : String) (value : PyVal) :
    Except String PyVal :=
  match strip_order_by_values ordName ordName value with
  | .error e => .error e
  | .ok v => validate_order_by attrs ordName ordName v

/-- The base-name computation as claim C3 words it: strip only a leading
`+` or `-` direction marker, if any.  (The source instead removes every
occurrence of the two characters; this definition exists to compare the two.) -/
def stripLeadingMarker (t : String) : String :=
  if t.data.head? = some '-' || t.data.head? = some '+' then ⟨t.data.drop 1⟩ else t

/-- The duplicate-ordering error listing as the spec words it: all offending
original tokens, comma-joined, grouped and sorted by base field name.  Stated
independently of the loop, with `List.filter`/`List.dedup`. -/
def specAmbiguousTokens (l : List String) : String :=
  pyJoin ", "
    ((sortStr (((l.map pyBase).dedup).filter
        (fun b => 1 < (l.filter (fun t => pyBase t = b)).length))).flatMap
      (fun b => l.filter (fun t => pyBase t = b)))

/-! ## `with_prefix` and its reconstruction rule -/

/-- Embedding of Python `s.removeprefix(p)`. -/
def dropPre (p s : String) : String :=
  if p.data.isPrefixOf s.data then ⟨s.data.drop p.data.length⟩ else s

/-- An input value handed to the reconstruction rule `plain_validator`: a
pydantic model instance (carrying its field-to-value mapping), a plain dict,
or a value of any other type (carrying its type name). -/
inductive VInput
  | modelV (fields : List (String × PyVal))
  | dictV (fields : List (String × PyVal))
  | otherV (typeName : String)

/-- An instance of the concrete original schema `S` with the single field
`count : Optional[int] = None`, used to evaluate the reconstruction rule. -/
structure SInst where
  count : Option Int
deriving DecidableEq

/-- Embedding of pydantic construction `S(**data)` for the one-field schema
`SInst` under `extra="forbid"`: any key other than `count` is rejected,
`count` takes an int or `None`, and an absent `count` defaults to `None`. -/
def constructS (data : List (String × PyVal)) : Except String SInst :=
  if data.all (fun p => p.1 = "count") then
    match data.find? (fun p => p.1 = "count") with
    | some (_, .intV n) => .ok ⟨some n⟩
    | some (_, .noneV) => .ok ⟨none⟩
    | some _ => .error "validation error: int_parsing for field count"
    | none => .ok ⟨none⟩
  else .error "validation error: extra_forbidden"

/-- Embedding of the `plain_validator` closure built by `with_prefix`
(source lines 183-193), applied to the schema `SInst` with the given
namespacing string `pfx` (`NestedFilter.Constants.prefix`): a model instance
is first dumped to its field mapping; a mapping has `pfx` removed from the
front of every key (`k.removeprefix(...)`) and the original schema is built
from the result; any other value raises naming the unexpected type. -/
def plain_validator (pfx : String) (value : VInput) : Except String SInst :=
  match value with
  | .modelV fs => constructS (fs.map (fun p => (dropPre pfx p.1, p.2)))
  | .dictV fs => constructS (fs.map (fun p => (dropPre pfx p.1, p.2)))
  | .otherV tyName => .error ("Unexpected type: " ++ tyName)

/-! ## The field-schema adapter `_list_to_str_fields` -/

/-- A non-union Python type expression, as resolved by `typing.get_origin` /
`get_args` in the adapter.  `sList t` models both `list` and `List[t]`. -/
inductive SimpleTy
  | sNone
  | sInt
  | sStr
  | sList (elem : SimpleTy)
deriving DecidableEq

/-- A declared field type: either a non-union type or a flat union of
non-union alternatives (Python's `typing` flattens nested unions, so
`Optional[X]` is `union [X, sNone]`). -/
inductive PyTy
  | simple (t : SimpleTy)
  | union (args : List SimpleTy)
deriving DecidableEq

/-- A pydantic `FieldInfo` default: `undef` is `PydanticUndefined`
(the field is required). -/
inductive PyDefault
  | undef
  | noneD
  | intD (n : Int)
  | strD (s : String)
  | listD (l : List String)
deriving DecidableEq

/-- The slice of a pydantic `FieldInfo` inspected by the adapter: the declared
type and the default. -/
structure FieldInfo where
  ty : PyTy
  dflt : PyDefault
deriving DecidableEq

/-- `FieldInfo.is_required()`: no default was declared. -/
def FieldInfo.requiredF (f : FieldInfo) : Bool := f.dflt = PyDefault.undef

/-- `isinstance(field_info.default, Iterable)`: among the modelled defaults,
lists and strings are the iterable ones. -/
def PyDefault.iterable : PyDefault → Bool
  | .strD _ => true
  | .listD _ => true
  | _ => false

/-- `",".join(field_info.default)` guarded by the `Iterable` test of source
line 216-217: a list default becomes the comma-join of its items, a string
default the comma-join of its characters, anything else is kept. -/
def PyDefault.joinComma : PyDefault → PyDefault
  | .listD l => .strD (pyJoin "," l)
  | .strD s => .strD (pyJoin "," (s.data.map String.singleton))
  | d => d

/-- Source lines 206-211: if the declared type is a union, drop the first
`NoneType` among its arguments (Python `list.remove`); if exactly one
argument remains, unwrap to it, otherwise keep the declared type. -/
def resolve_union (t : PyTy) : PyTy :=
  match t with
  | .union args =>
    match args.erase SimpleTy.sNone with
    | [a] => .simple a
    | _ => t
  | _ => t

/-- Source line 215: `annotation is list or get_origin(annotation) is list`. -/
def PyTy.isList : PyTy → Bool
  | .simple (.sList _) => true
  | _ => false

/-- Embedding of one iteration of the loop of `_list_to_str_fields`
(source lines 202-220): the `(type, FieldInfo)` pair registered for a field,
with the pair flattened to a `FieldInfo` (type and default). -/
def list_to_str_field (f : FieldInfo) : FieldInfo :=
  if (resolve_union f.ty).isList then
    ⟨if f.requiredF then .simple .sStr else .union [.sStr, .sNone],
     f.dflt.joinComma⟩
  else ⟨f.ty, f.dflt⟩

/-- Embedding of `_list_to_str_fields` over a whole schema, a name-indexed
field list in declaration order. -/
def list_to_str_fields (fields : List (String × FieldInfo)) :
    List (String × FieldInfo) :=
  fields.map (fun p => (p.1, list_to_str_field p.2))

/-- The field-schema adapter as the spec words it (claim C5): resolve the
declared type, unwrapping an optional/union type exactly when it wraps
exactly one non-null alternative; if the resolved type is a list type,
replace the type by string (required iff the field was required) and a
default list value by its elements joined with `,`; carry over every other
field with its original declared type and default. -/
def joinListOnly : PyDefault → PyDefault
  | .listD l => .strD (pyJoin "," l)
  | d => d

def adaptFieldSpec (f : FieldInfo) : FieldInfo :=
  let resolved : PyTy :=
    match f.ty with
    | .union args =>
      match args.filter (fun a => a ≠ SimpleTy.sNone) with
      | [a] => .simple a
      | _ => f.ty
    | t => t
  if resolved.isList then
    ⟨if f.requiredF then .simple .sStr else .union [.sStr, .sNone],
     joinListOnly f.dflt⟩
  else ⟨f.ty, f.dflt⟩

/-- Well-formedness of a declared type as produced by Python's `typing`:
union argument lists are deduplicated, so `NoneType` occurs at most once. -/
def PyTy.wf : PyTy → Prop
  | .union args => args.count SimpleTy.sNone ≤ 1
  | _ => True

instance : DecidablePred PyTy.wf := fun t =>
  match t with
  | .simple _ => isTrue trivial
  | .union args => inferInstanceAs (Decidable (args.count SimpleTy.sNone ≤ 1))

/-- The default is not a bare string (a string default on a list-typed field
would be iterated character-wise by the `",".join` of the source; pydantic
filter schemas do not declare such defaults). -/
def PyDefault.notStr : PyDefault → Prop
  | .strD _ => False
  | _ => True

instance : DecidablePred PyDefault.notStr := fun d =>
  match d with
  | .undef => isTrue trivial
  | .noneD => isTrue trivial
  | .intD _ => isTrue trivial
  | .strD _ => isFalse id
  | .listD _ => isTrue trivial

/-- Modelled from the spec: the reconstruction of a list-typed field value
from its adapted string form is not part of `src` (it happens inside the
re-validation of the original schema, outside `base/filter.py`); the spec
says "comma-separated scalar values in a single string parameter, parsed
back to the original element type at reconstruction time", with null/empty
input giving an empty list. -/
def parseListValue (s : String) : List String :=
  if s = "" then [] else pySplit ',' s

/-! ## `BaseFilterModel` instance-level operations -/

/-- One field of a constructed filter instance: its name, its value, and
whether it was explicitly supplied at construction (pydantic's
`model_fields_set`, consulted by `exclude_unset`). -/
structure FieldState where
  name : String
  value : PyVal
  isSet : Bool
deriving DecidableEq

/-- A constructed filter instance together with the
`Constants.ordering_field_name` of its class, fields in declaration order. -/
structure FilterInst where
  fields : List FieldState
  ordering_field_name : String
deriving DecidableEq

/-- `self.model_dump(exclude_none=True, exclude_unset=True)` (source line 59):
the name-to-value mapping of the fields that were explicitly supplied and are
not `None`, in declaration order. -/
def model_dump_set_not_none (inst : FilterInst) : List (String × PyVal) :=
  (inst.fields.filter (fun f => f.isSet && f.value ≠ PyVal.noneV)).map
    (fun f => (f.name, f.value))

/-- Embedding of the `filtering_fields` property (source lines 57-61): the
dump above with the ordering field popped. -/
def filtering_fields (inst : FilterInst) : List (String × PyVal) :=
  (model_dump_set_not_none inst).filter
    (fun p => p.1 ≠ inst.ordering_field_name)

/-- `filtering_fields` as the spec words it: the fields whose value is
present and explicitly supplied, the ordering field excluded, in declaration
order. -/
def specFilteringFields (inst : FilterInst) : List (String × PyVal) :=
  (inst.fields.filter (fun f =>
      f.isSet && f.value ≠ PyVal.noneV && f.name ≠ inst.ordering_field_name)).map
    (fun f => (f.name, f.value))

/-- The two error species surfaced by the base abstraction: a Python
`AttributeError` (configuration error) versus a validation error. -/
inductive PyErr
  | attrError (msg : String)
  | validationErr (msg : String)
deriving DecidableEq

/-- Embedding of the `ordering_values` property (source lines 66-75):
`getattr(self, self.Constants.ordering_field_name)`, re-raised as an
`AttributeError` naming the missing ordering field when the schema does not
define it. -/
def ordering_values (inst : FilterInst) : Except PyErr PyVal :=
  match inst.fields.find? (fun f => f.name = inst.ordering_field_name) with
  | some f => .ok f.value
  | none =>
    .error (.attrError ("Ordering field " ++ inst.ordering_field_name ++
      " is not defined. Make sure to add it to your filter class."))

/-! ## The `FilterWrapper` produced by `FilterDepends` -/

/-- One entry of pydantic's `ValidationError.errors()`: per-field location,
message and error kind. -/
structure ErrDetail where
  loc : String
  msg : String
  errKind : String
deriving DecidableEq

/-- The internal pydantic `ValidationError`, as its list of per-field
details. -/
structure VError where
  errors : List ErrDetail
deriving DecidableEq

/-- FastAPI's `RequestValidationError`, the web boundary's
request-validation-error type, as its list of per-field details. -/
structure ReqVError where
  errors : List ErrDetail
deriving DecidableEq

/-- Embedding of `FilterWrapper.filter` (source lines 240-245): rebuild the
original filter from the adapted instance's dump (`construct` models
`Filter(**self.model_dump(by_alias=by_alias))`), translating a
`ValidationError` into `RequestValidationError(e.errors())`; only on success
delegate to the original instance's `filter` with the call arguments. -/
def filter_wrapper_filter {α β γ : Type} (construct : β → Except VError α)
    (origFilter : α → γ → γ) (dump : β) (q : γ) : Except ReqVError γ :=
  match construct dump with
  | .error e => .error ⟨e.errors⟩
  | .ok orig => .ok (origFilter orig q)

/-- Embedding of `FilterWrapper.sort` (source lines 247-252), identical in
structure to `FilterWrapper.filter`. -/
def filter_wrapper_sort {α β γ : Type} (construct : β → Except VError α)
    (origSort : α → γ → γ) (dump : β) (q : γ) : Except ReqVError γ :=
  match construct dump with
  | .error e => .error ⟨e.errors⟩
  | .ok orig => .ok (origSort orig q)

/-! ## Order properties of `pyLe` (needed to reason about `sortStr`) -/

instance : IsTotal String pyLe where
  total a b := by
    show lexLeB a.data b.data = true ∨ lexLeB b.data a.data = true
    generalize a.data = as
    generalize b.data = bs
    induction as generalizing bs with
    | nil => exact Or.inl rfl
    | cons x xs ih =>
      cases bs with
      | nil => exact Or.inr rfl
      | cons y ys =>
        by_cases hxy : x = y
        · subst hxy
          rcases ih ys with h | h
          · left; simpa [lexLeB] using h
          · right; simpa [lexLeB] using h
        · rcases lt_or_gt_of_ne hxy with h | h
          · left; simp [lexLeB, hxy, h]
          · right; simp [lexLeB, Ne.symm hxy, h]

instance : IsTrans String pyLe where
  trans a b c h1 h2 := by
    show lexLeB a.data c.data = true
    have H : ∀ (as bs cs : List Char), lexLeB as bs = true →
        lexLeB bs cs = true → lexLeB as cs = true := by
      intro as
      induction as with
      | nil => intro bs cs _ _; rfl
      | cons x xs ih =>
        intro bs cs hab hbc
        cases bs with
        | nil => simp [lexLeB] at hab
        | cons y ys =>
          cases cs with
          | nil => simp [lexLeB] at hbc
          | cons z zs =>
            by_cases hxy : x = y
            · subst hxy
              by_cases hxz : x = z
              · subst hxz
                simp only [lexLeB, if_pos rfl] at hab hbc ⊢
                exact ih ys zs hab hbc
              · simp only [lexLeB, if_pos rfl] at hab
                simp only [lexLeB, if_neg hxz] at hbc ⊢
                exact hbc
            · simp only [lexLeB, if_neg hxy] at hab
              have hlt : x < y := of_decide_eq_true hab
              by_cases hyz : y = z
              · subst hyz
                simp only [lexLeB, if_neg hxy]
                exact decide_eq_true hlt
              · simp only [lexLeB, if_neg hyz] at hbc
                have hlt2 : y < z := of_decide_eq_true hbc
                have hxz : x < z := lt_trans hlt hlt2
                simp only [lexLeB, if_neg (ne_of_lt hxz)]
                exact decide_eq_true hxz
    exact H a.data b.data c.data h1 h2

instance : IsAntisymm String pyLe where
  antisymm a b h1 h2 := by
    have H : ∀ (as bs : List Char), lexLeB as bs = true →
        lexLeB bs as = true → as = bs := by
      intro as
      induction as with
      | nil =>
        intro bs hab _
        cases bs with
        | nil => rfl
        | cons y ys => simp [lexLeB] at *
      | cons x xs ih =>
        intro bs hab hba
        cases bs with
        | nil => simp [lexLeB] at hab
        | cons y ys =>
          by_cases hxy : x = y
          · subst hxy
            simp only [lexLeB, if_pos rfl] at hab hba
            rw [ih ys hab hba]
          · simp only [lexLeB, if_neg hxy] at hab
            simp only [lexLeB, if_neg (Ne.symm hxy)] at hba
            exact absurd (of_decide_eq_true hba)
              (not_lt_of_gt (of_decide_eq_true hab))
    cases a with
    | mk as =>
      cases b with
      | mk bs => exact congrArg String.mk (H as bs h1 h2)

/-! ## Helper lemmas: strings and lists -/

theorem data_append (a b : String) : (a ++ b).data = a.data ++ b.data := by
  cases a; cases b; rfl

theorem mk_data (s : String) : String.mk s.data = s := by
  cases s; rfl

theorem data_eq_nil_iff (s : String) : s.data = [] ↔ s = "" := by
  constructor
  · intro h
    cases s with
    | mk l =>
      have hl : l = [] := h
      subst hl
      rfl
  · intro h
    rw [h]

theorem dropWhile_head?_not (p : Char → Bool) :
    ∀ l : List Char, ∀ c, (l.dropWhile p).head? = some c → p c = false := by
  intro l
  induction l with
  | nil => intro c h; simp [List.dropWhile] at h
  | cons x xs ih =>
    intro c h
    by_cases hx : p x
    · rw [List.dropWhile_cons, if_pos hx] at h
      exact ih c h
    · rw [List.dropWhile_cons, if_neg hx] at h
      have : x = c := by simpa using h
      subst this
      simpa using hx

theorem dropWhile_eq_self_of_head (p : Char → Bool) (l : List Char)
    (h : ∀ c, l.head? = some c → p c = false) : l.dropWhile p = l := by
  cases l with
  | nil => rfl
  | cons x xs =>
    rw [List.dropWhile_cons, if_neg]
    simp [h x rfl]

theorem pyStrip_idem (s : String) : pyStrip (pyStrip s) = pyStrip s := by
  unfold pyStrip
  set p := pyIsSpace
  set A := s.data.dropWhile p with hA
  set B := A.reverse.dropWhile p with hB
  have hBhead : ∀ c, B.head? = some c → p c = false := by
    intro c hc
    exact dropWhile_head?_not p A.reverse c (hB ▸ hc)
  have claim1 : B.reverse.dropWhile p = B.reverse := by
    apply dropWhile_eq_self_of_head
    intro c hc
    rw [List.head?_reverse] at hc
    rcases hBe : B with _ | ⟨b0, Brest⟩
    · rw [hBe] at hc; simp at hc
    · have hBne : B ≠ [] := by rw [hBe]; simp
      have h1 : A.reverse.takeWhile p ++ B = A.reverse := by
        rw [hB]; exact List.takeWhile_append_dropWhile p A.reverse
      have h2 : A.reverse.getLast? = B.getLast? := by
        rw [← h1]; exact List.getLast?_append_of_ne_nil _ hBne
      have h3 : A.reverse.getLast? = A.head? := by
        have := List.head?_reverse A.reverse
        rw [List.reverse_reverse] at this
        exact this.symm
      have h4 : A.head? = some c := by rw [← h3, h2]; exact hc
      exact dropWhile_head?_not p s.data c (hA ▸ h4)
  have claim2 : B.dropWhile p = B := by
    apply dropWhile_eq_self_of_head
    exact hBhead
  simp only [claim1, List.reverse_reverse, claim2]

theorem countP_filter_le_one (l : List String) (h : (l.map pyBase).Nodup)
    (b : String) : (l.filter (fun t => pyBase t = b)).length ≤ 1 := by
  induction l with
  | nil => simp
  | cons t rest ih =>
    simp only [List.map_cons, List.nodup_cons] at h
    by_cases hb : pyBase t = b
    · rw [List.filter_cons, if_pos (by simpa using hb)]
      have hrest : rest.filter (fun t => pyBase t = b) = [] := by
        rw [List.filter_eq_nil_iff]
        intro x hx hbx
        exact h.1 (List.mem_map.mpr ⟨x, hx, by
          have : pyBase x = b := by simpa using hbx
          rw [this, ← hb]⟩)
      rw [hrest]
      simp
    · rw [List.filter_cons, if_neg (by simpa using hb)]
      exact ih h.2

/-! ## Helper lemmas: the `field_name_usages` association list -/

theorem getU_addUsage (u : List (String × List String)) (b t : String) :
    ∀ b', getU (addUsage u b t) b' =
      if b' = b then getU u b ++ [t] else getU u b' := by
  induction u with
  | nil =>
    intro b'
    by_cases h : b' = b
    · subst h; simp [addUsage, getU]
    · simp [addUsage, getU, h, Ne.symm h]
  | cons q rest ih =>
    obtain ⟨k, ts⟩ := q
    intro b'
    by_cases hk : k = b
    · subst hk
      by_cases h : b' = k
      · subst h; simp [addUsage, getU]
      · have hk2 : ¬ k = b' := fun e => h (Eq.symm e)
        simp [addUsage, getU, h, hk2]
    · by_cases h : b' = k
      · subst h
        have hbb : b' ≠ b := hk
        simp [addUsage, getU, hk, hbb]
      · simp only [addUsage, if_neg hk, getU, if_neg (fun e => h (Eq.symm e))]
        exact ih b'

theorem getU_buildUsages : ∀ (l : List String) (u : List (String × List String))
    (b : String), getU (buildUsages u l) b =
      getU u b ++ l.filter (fun t => pyBase t = b) := by
  intro l
  induction l with
  | nil => intro u b; simp [buildUsages]
  | cons t rest ih =>
    intro u b
    have hstep : buildUsages u (t :: rest) =
        buildUsages (addUsage u (pyBase t) t) rest := rfl
    rw [hstep, ih, getU_addUsage]
    by_cases h : b = pyBase t
    · rw [if_pos h, ← h]
      rw [List.filter_cons, if_pos (by simp [h.symm])]
      simp [List.append_assoc]
    · rw [if_neg h, List.filter_cons,
        if_neg (by simpa using fun e => h (Eq.symm e))]

theorem mem_keys_addUsage (u : List (String × List String)) (b t b' : String) :
    b' ∈ (addUsage u b t).map Prod.fst ↔ b' ∈ u.map Prod.fst ∨ b' = b := by
  induction u with
  | nil => simp [addUsage]
  | cons q rest ih =>
    obtain ⟨k, ts⟩ := q
    by_cases hk : k = b
    · subst hk
      simp [addUsage]
      tauto
    · simp only [addUsage, if_neg hk, List.map_cons, List.mem_cons, ih]
      tauto

theorem mem_keys_buildUsages : ∀ (l : List String)
    (u : List (String × List String)) (b' : String),
    b' ∈ (buildUsages u l).map Prod.fst ↔
      b' ∈ u.map Prod.fst ∨ ∃ t ∈ l, pyBase t = b' := by
  intro l
  induction l with
  | nil => intro u b'; simp [buildUsages]
  | cons t rest ih =>
    intro u b'
    have hstep : buildUsages u (t :: rest) =
        buildUsages (addUsage u (pyBase t) t) rest := rfl
    rw [hstep, ih, mem_keys_addUsage]
    constructor
    · rintro ((h | h) | h)
      · exact Or.inl h
      · exact Or.inr ⟨t, List.mem_cons_self t rest, h.symm⟩
      · obtain ⟨x, hx, hbx⟩ := h
        exact Or.inr ⟨x, List.mem_cons_of_mem t hx, hbx⟩
    · rintro (h | ⟨x, hx, hbx⟩)
      · exact Or.inl (Or.inl h)
      · rcases List.mem_cons.mp hx with rfl | hx2
        · exact Or.inl (Or.inr hbx.symm)
        · exact Or.inr ⟨x, hx2, hbx⟩

theorem nodup_keys_addUsage (u : List (String × List String)) (b t : String)
    (h : (u.map Prod.fst).Nodup) : ((addUsage u b t).map Prod.fst).Nodup := by
  induction u with
  | nil => simp [addUsage]
  | cons q rest ih =>
    obtain ⟨k, ts⟩ := q
    simp only [List.map_cons, List.nodup_cons] at h
    by_cases hk : k = b
    · subst hk
      simpa [addUsage] using h
    · simp only [addUsage, if_neg hk, List.map_cons, List.nodup_cons]
      constructor
      · intro hmem
        rcases (mem_keys_addUsage rest b t k).mp hmem with h2 | h2
        · exact h.1 h2
        · exact hk h2
      · exact ih h.2

theorem nodup_keys_buildUsages : ∀ (l : List String)
    (u : List (String × List String)), (u.map Prod.fst).Nodup →
    ((buildUsages u l).map Prod.fst).Nodup := by
  intro l
  induction l with
  | nil => intro u h; exact h
  | cons t rest ih =>
    intro u h
    exact ih _ (nodup_keys_addUsage u (pyBase t) t h)

theorem mem_entry_getU (u : List (String × List String))
    (h : (u.map Prod.fst).Nodup) : ∀ p ∈ u, getU u p.1 = p.2 := by
  induction u with
  | nil => simp
  | cons q rest ih =>
    intro p hp
    simp only [List.map_cons, List.nodup_cons] at h
    rcases List.mem_cons.mp hp with rfl | hp2
    · simp [getU]
    · have hne : q.1 ≠ p.1 := by
        intro e
        exact h.1 (e ▸ List.mem_map_of_mem Prod.fst hp2)
      simp only [getU, if_neg hne]
      exact ih h.2 p hp2

theorem key_mem_entry (u : List (String × List String)) (b : String)
    (h : b ∈ u.map Prod.fst) : (b, getU u b) ∈ u := by
  induction u with
  | nil => simp at h
  | cons q rest ih =>
    by_cases hq : q.1 = b
    · obtain ⟨k, ts⟩ := q
      simp only at hq
      subst hq
      simp [getU]
    · have hb : b ∈ rest.map Prod.fst := by
        rcases List.mem_map.mp h with ⟨p, hp, hpb⟩
        rcases List.mem_cons.mp hp with rfl | hp2
        · exact absurd hpb hq
        · exact List.mem_map.mpr ⟨p, hp2, hpb⟩
      simp only [getU, if_neg hq]
      exact List.mem_cons_of_mem q (ih hb)

/-! ## Helper lemmas: the validation loop and the duplicate set -/

theorem order_by_loop_ok (attrs : List String) :
    ∀ (l : List String) (u : List (String × List String)),
    (∀ t ∈ l, pyBase t ∈ attrs) →
    order_by_loop attrs l u = .ok (buildUsages u l) := by
  intro l
  induction l with
  | nil => intro u h; rfl
  | cons t rest ih =>
    intro u h
    have ht : pyBase t ∈ attrs := h t (List.mem_cons_self t rest)
    show (if pyBase t ∈ attrs then _ else _) = _
    rw [if_pos ht]
    exact ih _ (fun x hx => h x (List.mem_cons_of_mem t hx))

theorem order_by_loop_first_err (attrs : List String) :
    ∀ (l₁ : List String) (t : String) (l₂ : List String)
    (u : List (String × List String)),
    (∀ x ∈ l₁, pyBase x ∈ attrs) → pyBase t ∉ attrs →
    order_by_loop attrs (l₁ ++ t :: l₂) u =
      .error (pyBase t ++ " is not a valid ordering field.") := by
  intro l₁
  induction l₁ with
  | nil =>
    intro t l₂ u _ ht
    show (if pyBase t ∈ attrs then _ else _) = _
    rw [if_neg ht]
  | cons x xs ih =>
    intro t l₂ u h ht
    have hx : pyBase x ∈ attrs := h x (List.mem_cons_self x xs)
    show (if pyBase x ∈ attrs then _ else _) = _
    rw [if_pos hx]
    exact ih t l₂ _ (fun y hy => h y (List.mem_cons_of_mem x hy)) ht

theorem mem_dups_iff (l : List String) (b : String) :
    b ∈ ((buildUsages [] l).filter (fun p => 1 < p.2.length)).map Prod.fst ↔
      1 < (l.filter (fun t => pyBase t = b)).length := by
  have hnodup : ((buildUsages [] l).map Prod.fst).Nodup :=
    nodup_keys_buildUsages l [] (by simp)
  constructor
  · intro h
    rcases List.mem_map.mp h with ⟨p, hp, hpb⟩
    have hf := List.mem_filter.mp hp
    have hval := mem_entry_getU _ hnodup p hf.1
    rw [getU_buildUsages] at hval
    have hlen : 1 < p.2.length := by simpa using hf.2
    rw [← hval] at hlen
    simpa [hpb, getU] using hlen
  · intro h
    have hex : ∃ t ∈ l, pyBase t = b := by
      have hpos : 0 < (l.filter (fun t => pyBase t = b)).length :=
        Nat.lt_of_lt_of_le Nat.zero_lt_one (Nat.le_of_lt h)
      rcases List.exists_mem_of_length_pos hpos with ⟨t, hmem⟩
      have := List.mem_filter.mp hmem
      exact ⟨t, this.1, by simpa using this.2⟩
    have hkey : b ∈ (buildUsages [] l).map Prod.fst := by
      rw [mem_keys_buildUsages]
      exact Or.inr hex
    refine List.mem_map.mpr ⟨(b, getU (buildUsages [] l) b),
      List.mem_filter.mpr ⟨key_mem_entry _ b hkey, ?_⟩, rfl⟩
    rw [getU_buildUsages]
    simpa [getU] using h

theorem nodup_dups (l : List String) :
    (((buildUsages [] l).filter (fun p => 1 < p.2.length)).map Prod.fst).Nodup := by
  have hnodup : ((buildUsages [] l).map Prod.fst).Nodup :=
    nodup_keys_buildUsages l [] (by simp)
  exact List.Nodup.sublist
    ((List.filter_sublist (buildUsages [] l)).map Prod.fst) hnodup

theorem sortStr_eq_of_perm (l₁ l₂ : List String) (h : List.Perm l₁ l₂) :
    sortStr l₁ = sortStr l₂ :=
  List.eq_of_perm_of_sorted
    ((List.perm_insertionSort pyLe l₁).trans
      (h.trans (List.perm_insertionSort pyLe l₂).symm))
    (List.sorted_insertionSort pyLe l₁) (List.sorted_insertionSort pyLe l₂)

/-! ## Claim C2 -/

/-- C2: for every filter schema and every ordering-token sequence (of tokens
naming attributes of the target model) in which some base field name occurs
more than once, regardless of the direction-marker combination,
`validate_order_by` fails with a single validation error whose message lists
all offending original tokens, comma-joined, grouped and sorted by base field
name (the message computed independently by `specAmbiguousTokens`). -/
theorem C2_duplicate_ordering_rejected (attrs : List String) (ord : String)
    (l : List String) (h1 : ∀ t ∈ l, pyBase t ∈ attrs)
    (h2 : ∃ b, 1 < (l.filter (fun t => pyBase t = b)).length) :
    validate_order_by attrs ord ord (.listV l) =
      .error ("Field names can appear at most once for " ++ ord ++
        ". The following was ambiguous: " ++ specAmbiguousTokens l ++ ".") := by
  obtain ⟨b0, hb0⟩ := h2
  have hl : l ≠ [] := by
    intro e
    rw [e] at hb0
    simp at hb0
  have key : validate_order_by attrs ord ord (.listV l) =
      (let u := buildUsages [] l
       let dups := (u.filter (fun p => 1 < p.2.length)).map Prod.fst
       if dups.isEmpty then Except.ok (PyVal.listV l)
       else Except.error ("Field names can appear at most once for " ++ ord ++
         ". The following was ambiguous: " ++
         pyJoin ", " ((sortStr dups).flatMap (getU u)) ++ ".")) := by
    unfold validate_order_by
    rw [if_neg (by simp), if_neg (by simp [PyVal.falsy, List.isEmpty_iff, hl])]
    simp only [PyVal.tokens]
    rw [order_by_loop_ok attrs l [] h1]
  rw [key]
  set u := buildUsages [] l with hu
  set dups := (u.filter (fun p => 1 < p.2.length)).map Prod.fst with hdups
  have hb0mem : b0 ∈ dups := by
    rw [hdups, hu]
    exact (mem_dups_iff l b0).mpr hb0
  have hne : ¬ dups.isEmpty = true := by
    cases hd : dups with
    | nil => rw [hd] at hb0mem; simp at hb0mem
    | cons a as => simp [hd]
  rw [if_neg hne]
  have hgetfun : getU u = fun b => l.filter (fun t => pyBase t = b) := by
    funext b
    rw [hu, getU_buildUsages]
    simp [getU]
  have hperm : List.Perm dups
      (((l.map pyBase).dedup).filter
        (fun b => 1 < (l.filter (fun t => pyBase t = b)).length)) := by
    apply (List.perm_ext_iff_of_nodup _ _).mpr
    · intro b
      rw [hdups, hu, mem_dups_iff]
      simp only [List.mem_filter, List.mem_dedup, List.mem_map]
      constructor
      · intro h
        refine ⟨?_, by simpa using h⟩
        have hpos : 0 < (l.filter (fun t => pyBase t = b)).length :=
          Nat.lt_of_lt_of_le Nat.zero_lt_one (Nat.le_of_lt h)
        rcases List.exists_mem_of_length_pos hpos with ⟨t, hmem⟩
        have := List.mem_filter.mp hmem
        exact ⟨t, this.1, by simpa using this.2⟩
      · intro h
        simpa using h.2
    · rw [hdups, hu]
      exact nodup_dups l
    · exact List.Nodup.filter _ (List.nodup_dedup _)
  rw [show sortStr dups = _ from sortStr_eq_of_perm _ _ hperm]
  rw [hgetfun]
  rfl

/-! ## Claim C3 -/

/-- C3 counterexample: the claim says the base field name is obtained by
stripping only the token's leading `+`/`-` marker, and that validation fails
exactly when that base name is not a model attribute.  For the token
`"count-"` against a model with the single attribute `count`, the
leading-marker base name `"count-"` is not an attribute, yet
`validate_order_by` succeeds, because the source removes every `-`/`+`
occurrence, giving the valid base name `count`. -/
theorem C3_counterexample :
    validate_order_by ["count"] "order_by" "order_by" (.listV ["count-"]) =
      .ok (.listV ["count-"]) ∧
    stripLeadingMarker "count-" = "count-" ∧
    "count-" ∉ ["count"] ∧
    pyBase "count-" = "count" := by
  exact ⟨rfl, by decide, by decide, by decide⟩

/-- C3 (amended): the validate step obtains the base field name by removing
every `+` and `-` character of the token (`pyBase`); it fails with a
validation error naming the base name of the first token whose base name is
not an attribute of the target model, and when every token's base name is an
attribute (and no base name repeats) it succeeds. -/
theorem C3_unknown_field_amended (attrs : List String) (ord : String) :
    (∀ (l₁ : List String) (t : String) (l₂ : List String),
      (∀ x ∈ l₁, pyBase x ∈ attrs) → pyBase t ∉ attrs →
      validate_order_by attrs ord ord (.listV (l₁ ++ t :: l₂)) =
        .error (pyBase t ++ " is not a valid ordering field.")) ∧
    (∀ l : List String, l ≠ [] → (∀ x ∈ l, pyBase x ∈ attrs) →
      (l.map pyBase).Nodup →
      validate_order_by attrs ord ord (.listV l) = .ok (.listV l)) := by
  constructor
  · intro l₁ t l₂ h ht
    have hne : l₁ ++ t :: l₂ ≠ [] := by simp
    unfold validate_order_by
    rw [if_neg (by simp), if_neg (by simp [PyVal.falsy, List.isEmpty_iff, hne])]
    simp only [PyVal.tokens]
    rw [order_by_loop_first_err attrs l₁ t l₂ [] h ht]
  · intro l hl h hnodup
    unfold validate_order_by
    rw [if_neg (by simp), if_neg (by simp [PyVal.falsy, List.isEmpty_iff, hl])]
    simp only [PyVal.tokens]
    rw [order_by_loop_ok attrs l [] h]
    have hdupsnil : (buildUsages [] l).filter (fun p => 1 < p.2.length) = [] := by
      rw [List.filter_eq_nil_iff]
      intro p hp
      have hval := mem_entry_getU _ (nodup_keys_buildUsages l [] (by simp)) p hp
      rw [getU_buildUsages] at hval
      simp only [getU, List.nil_append] at hval
      rw [← hval]
      simpa using Nat.not_lt.mpr (countP_filter_le_one l hnodup p.1)
    simp only [hdupsnil, List.map_nil, List.isEmpty_nil, if_pos]

/-- Witness for the amended C3 at concrete inputs, both conjuncts. -/
theorem C3_unknown_field_amended_witness :
    validate_order_by ["count"] "order_by" "order_by"
        (.listV ([] ++ "-missing" :: [])) =
      .error (pyBase "-missing" ++ " is not a valid ordering field.") ∧
    validate_order_by ["count", "name"] "order_by" "order_by"
        (.listV ["-count", "name"]) = .ok (.listV ["-count", "name"]) := by
  constructor
  · exact (C3_unknown_field_amended ["count"] "order_by").1 [] "-missing" []
      (by decide) (by decide)
  · exact (C3_unknown_field_amended ["count", "name"] "order_by").2
      ["-count", "name"] (by decide) (by decide) (by decide)

/-! ## Claim C2 witness -/

/-- Witness for C2 at the spec's own example: `-created_at` and `created_at`
together are a duplicate, and the message lists both original tokens. -/
theorem C2_duplicate_ordering_rejected_witness :
    (∀ t ∈ ["-created_at", "name", "created_at"],
      pyBase t ∈ ["created_at", "name"]) ∧
    1 < ((["-created_at", "name", "created_at"]).filter
      (fun t => pyBase t = "created_at")).length ∧
    validate_order_by ["created_at", "name"] "order_by" "order_by"
        (.listV ["-created_at", "name", "created_at"]) =
      .error ("Field names can appear at most once for " ++ "order_by" ++
        ". The following was ambiguous: " ++
        specAmbiguousTokens ["-created_at", "name", "created_at"] ++ ".") := by
  refine ⟨by decide, by decide, ?_⟩
  exact C2_duplicate_ordering_rejected ["created_at", "name"] "order_by"
    ["-created_at", "name", "created_at"] (by decide)
    ⟨"created_at", by decide⟩

/-! ## Claim C1 -/

/-- C1: evaluation of the reconstruction rule at the claim's own input.  With
the namespacing string `"p"`, the rule strips only `"p"` (not `"p__"`) from
the key `"p__count"`, leaving `"__count"`, so constructing the original
schema raises the closed-schema validation error instead of yielding the
instance obtained from `{"count": 1}`; the unexpected-input branch does
raise an error identifying the type. -/
theorem C1_reconstruction_eval :
    plain_validator "p" (.dictV [("p__count", .intV 1)]) =
      .error "validation error: extra_forbidden" ∧
    dropPre "p" "p__count" = "__count" ∧
    constructS [("count", .intV 1)] = .ok ⟨some 1⟩ ∧
    plain_validator "p" (.modelV [("count", .intV 1)]) = .ok ⟨some 1⟩ ∧
    plain_validator "p" (.otherV "int") = .error ("Unexpected type: " ++ "int") := by
  exact ⟨rfl, by decide, rfl, rfl, rfl⟩

/-! ## Claim C9 -/

/-- C9: on the ordering field, the strip rule never errors on null or empty
input, normalising it to the empty-tokens result (`None`); on non-empty token
input every token is trimmed and tokens empty after trimming are discarded;
on any field other than the ordering field it returns its input unchanged. -/
theorem C9_strip_behavior (ord fieldName : String) (v : PyVal)
    (l : List String) (hfield : fieldName ≠ ord) (hl : l ≠ []) :
    strip_order_by_values ord ord .noneV = .ok .noneV ∧
    strip_order_by_values ord ord (.listV []) = .ok .noneV ∧
    strip_order_by_values ord ord (.listV l) =
      .ok (.listV ((l.map pyStrip).filter (fun s => s ≠ ""))) ∧
    strip_order_by_values ord fieldName v = .ok v := by
  refine ⟨?_, ?_, ?_, ?_⟩
  · simp [strip_order_by_values, PyVal.falsy]
  · simp [strip_order_by_values, PyVal.falsy]
  · unfold strip_order_by_values
    rw [if_neg (by simp), if_neg (by simp [PyVal.falsy, List.isEmpty_iff, hl])]
    simp only [PyVal.tokens]
  · unfold strip_order_by_values
    rw [if_pos hfield]

/-- Witness for C9 at concrete inputs. -/
theorem C9_strip_behavior_witness :
    "count" ≠ "order_by" ∧ (["  a ", "  ", "b"] : List String) ≠ [] ∧
    (strip_order_by_values "order_by" "order_by" .noneV = .ok .noneV ∧
     strip_order_by_values "order_by" "order_by" (.listV []) = .ok .noneV ∧
     strip_order_by_values "order_by" "order_by" (.listV ["  a ", "  ", "b"]) =
       .ok (.listV ((["  a ", "  ", "b"].map pyStrip).filter (fun s => s ≠ ""))) ∧
     strip_order_by_values "order_by" "count" (.intV 3) = .ok (.intV 3)) :=
  ⟨by decide, by decide,
    C9_strip_behavior "order_by" "count" (.intV 3) ["  a ", "  ", "b"]
      (by decide) (by decide)⟩

/-! ## Claim C10 -/

/-- C10: when the `Constants` ordering field name is not a defined field of
the instance, `ordering_values` raises an `AttributeError` (not a validation
error) naming the missing ordering field; when the field exists, it returns
that field's value. -/
theorem C10_ordering_values_config_error (inst : FilterInst) :
    (inst.ordering_field_name ∉ inst.fields.map FieldState.name →
      ordering_values inst = .error (.attrError ("Ordering field " ++
        inst.ordering_field_name ++
        " is not defined. Make sure to add it to your filter class."))) ∧
    (∀ f, inst.fields.find? (fun g => g.name = inst.ordering_field_name) = some f →
      ordering_values inst = .ok f.value) := by
  constructor
  · intro h
    unfold ordering_values
    have hnone : inst.fields.find?
        (fun f => f.name = inst.ordering_field_name) = none := by
      rw [List.find?_eq_none]
      intro a ha
      simp only [decide_eq_true_eq]
      intro e
      exact h (List.mem_map.mpr ⟨a, ha, e⟩)
    rw [hnone]
  · intro f hf
    unfold ordering_values
    rw [hf]

/-- Witness for C10: one instance missing the ordering field, one with it. -/
theorem C10_ordering_values_config_error_witness :
    ordering_values ⟨[⟨"count", .intV 1, true⟩], "order_by"⟩ =
      .error (.attrError ("Ordering field " ++ "order_by" ++
        " is not defined. Make sure to add it to your filter class.")) ∧
    ordering_values ⟨[⟨"order_by", .listV ["-count"], true⟩], "order_by"⟩ =
      .ok (PyVal.listV ["-count"]) := by
  constructor
  · exact (C10_ordering_values_config_error
      ⟨[⟨"count", .intV 1, true⟩], "order_by"⟩).1 (by decide)
  · exact (C10_ordering_values_config_error
      ⟨[⟨"order_by", .listV ["-count"], true⟩], "order_by"⟩).2
      ⟨"order_by", .listV ["-count"], true⟩ (by decide)

/-! ## Claim C6 -/

/-- C6: each invocation of the wrapped `filter`/`sort` first reconstructs the
original-schema instance from the adapted instance's dump; on validation
failure the error is translated into the boundary's request-validation-error
type preserving the per-field error details, and the original `filter`/`sort`
is never invoked (the result does not depend on it); only on success is the
call delegated and its result returned. -/
theorem C6_wrapper_translates_and_delegates {α β γ : Type}
    (construct : β → Except VError α) (f g fs gs : α → γ → γ)
    (d : β) (q : γ) :
    (∀ e, construct d = .error e →
      filter_wrapper_filter construct f d q = .error ⟨e.errors⟩ ∧
      filter_wrapper_filter construct f d q =
        filter_wrapper_filter construct g d q ∧
      filter_wrapper_sort construct fs d q = .error ⟨e.errors⟩ ∧
      filter_wrapper_sort construct fs d q =
        filter_wrapper_sort construct gs d q) ∧
    (∀ a, construct d = .ok a →
      filter_wrapper_filter construct f d q = .ok (f a q) ∧
      filter_wrapper_sort construct fs d q = .ok (fs a q)) := by
  constructor
  · intro e he
    refine ⟨?_, ?_, ?_, ?_⟩ <;>
      simp [filter_wrapper_filter, filter_wrapper_sort, he]
  · intro a ha
    exact ⟨by simp [filter_wrapper_filter, ha],
      by simp [filter_wrapper_sort, ha]⟩

/-- Witness for C6: a failing and a succeeding reconstruction over `Nat`. -/
theorem C6_wrapper_translates_and_delegates_witness :
    (filter_wrapper_filter
        (fun _ : Nat => (.error ⟨[⟨"order_by", "bad", "value_error"⟩]⟩ :
          Except VError Nat)) (fun _ n => n + 1) 0 5 =
      .error ⟨[⟨"order_by", "bad", "value_error"⟩]⟩) ∧
    (filter_wrapper_filter
        (fun _ : Nat => (.ok 7 : Except VError Nat)) (fun a n => a + n) 0 5 =
      .ok ((fun (a n : Nat) => a + n) 7 5)) := by
  constructor
  · exact ((C6_wrapper_translates_and_delegates
      (fun _ : Nat => (.error ⟨[⟨"order_by", "bad", "value_error"⟩]⟩ :
        Except VError Nat)) (fun _ n => n + 1) (fun _ n => n + 2)
      (fun _ n => n + 3) (fun _ n => n + 4) 0 5).1
      ⟨[⟨"order_by", "bad", "value_error"⟩]⟩ rfl).1
  · exact ((C6_wrapper_translates_and_delegates
      (fun _ : Nat => (.ok 7 : Except VError Nat)) (fun a n => a + n)
      (fun _ n => n + 2) (fun _ n => n + 3) (fun _ n => n + 4) 0 5).2 7 rfl).1

theorem filter_ext_mem {α : Type} (p q : α → Bool) :
    ∀ l : List α, (∀ x ∈ l, p x = q x) → l.filter p = l.filter q := by
  intro l
  induction l with
  | nil => intro _; rfl
  | cons x xs ih =>
    intro h
    rw [List.filter_cons, List.filter_cons, h x (List.mem_cons_self x xs),
      ih (fun y hy => h y (List.mem_cons_of_mem x hy))]

/-! ## Claim C7 -/

/-- C7: `filtering_fields` returns exactly the fields whose value is non-null
and was explicitly supplied, excluding the ordering field, as a name-to-value
mapping in declaration order (equal to the independent spec-side
`specFilteringFields`); it never contains the ordering field name and never
contains a field left at its unset default. -/
theorem C7_filtering_fields_spec (inst : FilterInst)
    (hnodup : (inst.fields.map FieldState.name).Nodup) :
    filtering_fields inst = specFilteringFields inst ∧
    (∀ p ∈ filtering_fields inst, p.1 ≠ inst.ordering_field_name) ∧
    (∀ f ∈ inst.fields, (f.isSet = false ∨ f.value = PyVal.noneV) →
      f.name ∉ (filtering_fields inst).map Prod.fst) := by
  have h1 : filtering_fields inst = specFilteringFields inst := by
    unfold filtering_fields model_dump_set_not_none specFilteringFields
    rw [List.map_filter, List.filter_filter]
    refine congrArg (List.map _) (filter_ext_mem _ _ inst.fields ?_)
    intro f hf
    show (decide (f.name ≠ inst.ordering_field_name) &&
        (f.isSet && decide (f.value ≠ PyVal.noneV))) =
      (f.isSet && decide (f.value ≠ PyVal.noneV) &&
        decide (f.name ≠ inst.ordering_field_name))
    rw [Bool.and_comm]
  refine ⟨h1, ?_, ?_⟩
  · intro p hp
    unfold filtering_fields at hp
    have h2 := (List.mem_filter.mp hp).2
    simpa using h2
  · intro f hf hcase hmem
    rw [h1] at hmem
    unfold specFilteringFields at hmem
    rcases List.mem_map.mp hmem with ⟨q, hq, hqn⟩
    rcases List.mem_map.mp hq with ⟨g, hg, hgq⟩
    have hgf := List.mem_filter.mp hg
    have hname : g.name = f.name := by
      rw [← hqn, ← hgq]
    have hgeq : g = f :=
      List.inj_on_of_nodup_map hnodup hgf.1 hf hname
    subst hgeq
    have hprop := hgf.2
    simp only [Bool.and_eq_true, decide_eq_true_eq] at hprop
    rcases hcase with hc | hc
    · rw [hprop.1.1] at hc
      cases hc
    · exact hprop.1.2 hc

/-- Witness for C7 at a concrete instance containing a set non-null field, a
set null field, an unset field and the ordering field. -/
theorem C7_filtering_fields_spec_witness :
    ((FilterInst.mk [⟨"count", .intV 5, true⟩, ⟨"name", .noneV, true⟩,
        ⟨"tag", .intV 1, false⟩, ⟨"order_by", .listV ["x"], true⟩]
        "order_by").fields.map FieldState.name).Nodup ∧
    filtering_fields
        (FilterInst.mk [⟨"count", .intV 5, true⟩, ⟨"name", .noneV, true⟩,
          ⟨"tag", .intV 1, false⟩, ⟨"order_by", .listV ["x"], true⟩]
          "order_by") =
      specFilteringFields
        (FilterInst.mk [⟨"count", .intV 5, true⟩, ⟨"name", .noneV, true⟩,
          ⟨"tag", .intV 1, false⟩, ⟨"order_by", .listV ["x"], true⟩]
          "order_by") ∧
    filtering_fields
        (FilterInst.mk [⟨"count", .intV 5, true⟩, ⟨"name", .noneV, true⟩,
          ⟨"tag", .intV 1, false⟩, ⟨"order_by", .listV ["x"], true⟩]
          "order_by") = [("count", .intV 5)] := by
  refine ⟨by decide, ?_, by decide⟩
  exact (C7_filtering_fields_spec _ (by decide)).1

/-! ## Claim C5 -/

theorem erase_eq_filter_of_count_le_one {α : Type} [DecidableEq α] (a : α) :
    ∀ l : List α, l.count a ≤ 1 → l.erase a = l.filter (fun x => x ≠ a) := by
  intro l
  induction l with
  | nil => intro _; rfl
  | cons x xs ih =>
    intro h
    by_cases hx : x = a
    · subst hx
      rw [List.erase_cons_head]
      rw [List.count_cons_self] at h
      have hnot : x ∉ xs := by
        have h0 : xs.count x = 0 := by omega
        exact List.count_eq_zero.mp h0
      rw [List.filter_cons, if_neg (by simp)]
      refine Eq.symm (List.filter_eq_self.mpr ?_)
      intro b hb
      simp only [decide_eq_true_eq]
      intro e
      exact hnot (e ▸ hb)
    · rw [List.erase_cons_tail (by simpa using hx)]
      rw [List.count_cons_of_ne (Ne.symm hx)] at h
      rw [List.filter_cons, if_pos (by simpa using hx)]
      rw [ih h]

theorem joinComma_eq_of_notStr (d : PyDefault) (h : d.notStr) :
    d.joinComma = joinListOnly d := by
  cases d with
  | strD s => exact h.elim
  | undef => rfl
  | noneD => rfl
  | intD n => rfl
  | listD l => rfl

theorem list_to_str_field_spec (f : FieldInfo) (h1 : f.ty.wf)
    (h2 : f.dflt.notStr) : list_to_str_field f = adaptFieldSpec f := by
  obtain ⟨ty, dflt⟩ := f
  have h2' : PyDefault.notStr dflt := h2
  cases ty with
  | simple t =>
    simp only [list_to_str_field, adaptFieldSpec, resolve_union]
    rw [joinComma_eq_of_notStr dflt h2']
  | union args =>
    have hcount : args.count SimpleTy.sNone ≤ 1 := h1
    simp only [list_to_str_field, adaptFieldSpec, resolve_union]
    rw [erase_eq_filter_of_count_le_one SimpleTy.sNone args hcount]
    rw [joinComma_eq_of_notStr dflt h2']

/-- C5: the field-schema adapter maps each field exactly as the spec states:
unions wrapping exactly one non-null alternative are unwrapped for the list
test; list-typed fields become string-typed (required iff originally
required) with list defaults comma-joined; every other field, including one
whose union has more than one non-null alternative, keeps its declared type
and default; names and required-ness are preserved.  (Hypotheses: union
argument lists are deduplicated as Python's `typing` guarantees, and no field
declares a bare-string default.) -/
theorem C5_adapter_matches_spec (fields : List (String × FieldInfo))
    (h1 : ∀ p ∈ fields, (p.2).ty.wf)
    (h2 : ∀ p ∈ fields, (p.2).dflt.notStr) :
    list_to_str_fields fields =
      fields.map (fun p => (p.1, adaptFieldSpec p.2)) := by
  unfold list_to_str_fields
  apply List.map_congr_left
  intro p hp
  rw [list_to_str_field_spec p.2 (h1 p hp) (h2 p hp)]

/-- Witness for C5 on a representative schema: an optional list, a required
list, an optional int with default, a list with a default, and a
multi-alternative union (left untouched). -/
theorem C5_adapter_matches_spec_witness :
    (∀ p ∈ [("tags", FieldInfo.mk (.union [.sList .sStr, .sNone]) .noneD),
        ("ids", FieldInfo.mk (.simple (.sList .sInt)) .undef),
        ("count", FieldInfo.mk (.union [.sInt, .sNone]) (.intD 3)),
        ("labels", FieldInfo.mk (.union [.sList .sStr, .sNone])
          (.listD ["a", "b"])),
        ("mixed", FieldInfo.mk (.union [.sInt, .sStr, .sNone]) .noneD)],
      (p.2).ty.wf) ∧
    list_to_str_fields
        [("tags", FieldInfo.mk (.union [.sList .sStr, .sNone]) .noneD),
         ("ids", FieldInfo.mk (.simple (.sList .sInt)) .undef),
         ("count", FieldInfo.mk (.union [.sInt, .sNone]) (.intD 3)),
         ("labels", FieldInfo.mk (.union [.sList .sStr, .sNone])
           (.listD ["a", "b"])),
         ("mixed", FieldInfo.mk (.union [.sInt, .sStr, .sNone]) .noneD)] =
      ([("tags", FieldInfo.mk (.union [.sList .sStr, .sNone]) .noneD),
        ("ids", FieldInfo.mk (.simple (.sList .sInt)) .undef),
        ("count", FieldInfo.mk (.union [.sInt, .sNone]) (.intD 3)),
        ("labels", FieldInfo.mk (.union [.sList .sStr, .sNone])
          (.listD ["a", "b"])),
        ("mixed", FieldInfo.mk (.union [.sInt, .sStr, .sNone]) .noneD)]).map
        (fun p => (p.1, adaptFieldSpec p.2)) := by
  refine ⟨by decide, ?_⟩
  exact C5_adapter_matches_spec _ (by decide) (by decide)

/-! ## Claim C4 -/

theorem pySplitRun_no_sep (xs : List Char) :
    ∀ acc : List Char, (∀ c ∈ xs, c ≠ ',') →
    pySplitRun ',' xs acc = [⟨acc.reverse ++ xs⟩] := by
  induction xs with
  | nil => intro acc _; simp [pySplitRun]
  | cons x xs ih =>
    intro acc h
    have hx : x ≠ ',' := h x (List.mem_cons_self x xs)
    simp only [pySplitRun]
    rw [if_neg hx, ih (x :: acc) (fun c hc => h c (List.mem_cons_of_mem x hc))]
    simp [List.append_assoc]

theorem pySplitRun_sep (xs : List Char) :
    ∀ (rest acc : List Char), (∀ c ∈ xs, c ≠ ',') →
    pySplitRun ',' (xs ++ ',' :: rest) acc =
      ⟨acc.reverse ++ xs⟩ :: pySplitRun ',' rest [] := by
  induction xs with
  | nil =>
    intro rest acc _
    simp [pySplitRun]
  | cons x xs ih =>
    intro rest acc h
    have hx : x ≠ ',' := h x (List.mem_cons_self x xs)
    simp only [List.cons_append, pySplitRun, List.append_eq]
    rw [if_neg hx, ih rest (x :: acc)
      (fun c hc => h c (List.mem_cons_of_mem x hc))]
    simp [List.append_assoc]

theorem pyJoin_comma_data (s s2 : String) (rest : List String) :
    (pyJoin "," (s :: s2 :: rest)).data =
      s.data ++ ',' :: (pyJoin "," (s2 :: rest)).data := by
  have hstep : pyJoin "," (s :: s2 :: rest) =
      s ++ "," ++ pyJoin "," (s2 :: rest) := rfl
  rw [hstep, data_append, data_append]
  have hc : (",").data = [','] := rfl
  rw [hc]
  simp [List.append_assoc]

theorem pyJoin_ne_empty (s : String) (l : List String) (hs : s ≠ "") :
    pyJoin "," (s :: l) ≠ "" := by
  cases l with
  | nil => simpa [pyJoin] using hs
  | cons s2 rest =>
    intro e
    have hd : s.data ++ ',' :: (pyJoin "," (s2 :: rest)).data = [] := by
      rw [← pyJoin_comma_data]
      exact congrArg String.data e
    rcases List.append_eq_nil.mp hd with ⟨_, h2⟩
    cases h2

theorem parse_join_roundtrip (l : List String)
    (h : ∀ s ∈ l, s ≠ "" ∧ ∀ c ∈ s.data, c ≠ ',') :
    parseListValue (pyJoin "," l) = l := by
  induction l with
  | nil => rfl
  | cons s rest ih =>
    have hs := h s (List.mem_cons_self s rest)
    cases rest with
    | nil =>
      unfold parseListValue
      rw [if_neg (by simpa [pyJoin] using hs.1)]
      unfold pySplit
      have hdata : (pyJoin "," [s]).data = s.data := rfl
      rw [hdata, pySplitRun_no_sep s.data [] hs.2]
      simp [mk_data]
    | cons s2 rest2 =>
      have hrest : ∀ x ∈ s2 :: rest2, x ≠ "" ∧ ∀ c ∈ x.data, c ≠ ',' :=
        fun x hx => h x (List.mem_cons_of_mem s hx)
      have hJ := ih hrest
      have hJne : pyJoin "," (s2 :: rest2) ≠ "" :=
        pyJoin_ne_empty s2 rest2 (hrest s2 (List.mem_cons_self s2 rest2)).1
      unfold parseListValue
      rw [if_neg (pyJoin_ne_empty s (s2 :: rest2) hs.1)]
      unfold pySplit
      rw [pyJoin_comma_data,
        pySplitRun_sep s.data (pyJoin "," (s2 :: rest2)).data [] hs.2]
      have htail : pySplitRun ',' (pyJoin "," (s2 :: rest2)).data [] =
          s2 :: rest2 := by
        have h2 := hJ
        unfold parseListValue at h2
        rw [if_neg hJne] at h2
        unfold pySplit at h2
        exact h2
      rw [htail]
      simp [mk_data]

/-- C4: adaptation then reconstruction round-trips for list-typed fields: the
adapter turns the list default `["a","b"]` into the string `"a,b"` (the field
becoming string-typed), reconstruction parses `"a,b"` back to `["a","b"]`,
and in general parsing the comma-join of any list of non-empty comma-free
scalars returns that list. -/
theorem C4_list_adapt_roundtrip :
    list_to_str_field ⟨.union [.sList .sStr, .sNone], .listD ["a", "b"]⟩ =
      ⟨.union [.sStr, .sNone], .strD "a,b"⟩ ∧
    parseListValue "a,b" = ["a", "b"] ∧
    (∀ l : List String, (∀ s ∈ l, s ≠ "" ∧ ∀ c ∈ s.data, c ≠ ',') →
      parseListValue (pyJoin "," l) = l) := by
  refine ⟨by decide, by decide, ?_⟩
  intro l h
  exact parse_join_roundtrip l h

/-- Witness for C4 at the claim's own value. -/
theorem C4_list_adapt_roundtrip_witness :
    (∀ s ∈ ["a", "b"], s ≠ "" ∧ ∀ c ∈ s.data, c ≠ ',') ∧
    parseListValue (pyJoin "," ["a", "b"]) = ["a", "b"] := by
  refine ⟨by decide, ?_⟩
  exact C4_list_adapt_roundtrip.2.2 ["a", "b"] (by decide)

/-! ## Claim C8 -/

theorem strip_ok_cases (ord : String) (v w : PyVal)
    (h : strip_order_by_values ord ord v = .ok w) :
    w = .noneV ∨ ∃ l, w = .listV l ∧ ∀ t ∈ l, pyStrip t = t ∧ t ≠ "" := by
  unfold strip_order_by_values at h
  rw [if_neg (by simp)] at h
  by_cases hf : v.falsy
  · rw [if_pos hf] at h
    injection h with h2
    exact Or.inl h2.symm
  · rw [if_neg hf] at h
    cases hv : v.tokens with
    | none =>
      simp only [hv] at h
      exact Except.noConfusion h
    | some toks =>
      simp only [hv] at h
      injection h with h2
      right
      refine ⟨(toks.map pyStrip).filter (fun s => s ≠ ""), h2.symm, ?_⟩
      intro t ht
      have hmem := List.mem_filter.mp ht
      rcases List.mem_map.mp hmem.1 with ⟨t0, _, rfl⟩
      exact ⟨pyStrip_idem t0, by simpa using hmem.2⟩

theorem validate_noneV (attrs : List String) (ord : String) :
    validate_order_by attrs ord ord .noneV = .ok .noneV := by
  unfold validate_order_by
  rw [if_neg (by simp), if_pos (by simp [PyVal.falsy])]

theorem validate_listV_nil (attrs : List String) (ord : String) :
    validate_order_by attrs ord ord (.listV []) = .ok .noneV := by
  unfold validate_order_by
  rw [if_neg (by simp), if_pos (by simp [PyVal.falsy])]

theorem validate_listV_ok (attrs : List String) (ord : String)
    (l : List String) (w : PyVal) (hl : l ≠ [])
    (h : validate_order_by attrs ord ord (.listV l) = .ok w) : w = .listV l := by
  unfold validate_order_by at h
  rw [if_neg (by simp),
    if_neg (by simp [PyVal.falsy, List.isEmpty_iff, hl])] at h
  simp only [PyVal.tokens] at h
  cases hloop : order_by_loop attrs l [] with
  | error e =>
    simp only [hloop] at h
    exact Except.noConfusion h
  | ok u =>
    simp only [hloop] at h
    split at h
    · injection h with h2
      exact h2.symm
    · exact Except.noConfusion h

/-- C8: applying strip then validate to the already-processed output of a
successful strip-then-validate run yields the same output: the composition of
the two ordering validation rules is idempotent on its successful results. -/
theorem C8_strip_validate_idempotent (attrs : List String) (ord : String)
    (v w : PyVal) (h : processOrderBy attrs ord v = .ok w) :
    processOrderBy attrs ord w = .ok w := by
  unfold processOrderBy at h ⊢
  cases hs : strip_order_by_values ord ord v with
  | error e =>
    simp only [hs] at h
    exact Except.noConfusion h
  | ok v1 =>
    simp only [hs] at h
    rcases strip_ok_cases ord v v1 hs with rfl | ⟨l, rfl, htok⟩
    · rw [validate_noneV] at h
      injection h with h2
      subst h2
      have hstrip : strip_order_by_values ord ord PyVal.noneV =
          .ok PyVal.noneV := by
        unfold strip_order_by_values
        rw [if_neg (by simp), if_pos (by simp [PyVal.falsy])]
      simp only [hstrip]
      exact validate_noneV attrs ord
    · by_cases hl : l = []
      · subst hl
        rw [validate_listV_nil] at h
        injection h with h2
        subst h2
        have hstrip : strip_order_by_values ord ord PyVal.noneV =
            .ok PyVal.noneV := by
          unfold strip_order_by_values
          rw [if_neg (by simp), if_pos (by simp [PyVal.falsy])]
        simp only [hstrip]
        exact validate_noneV attrs ord
      · have hw := validate_listV_ok attrs ord l w hl h
        subst hw
        have hstrip2 : strip_order_by_values ord ord (.listV l) =
            .ok (.listV l) := by
          unfold strip_order_by_values
          rw [if_neg (by simp),
            if_neg (by simp [PyVal.falsy, List.isEmpty_iff, hl])]
          simp only [PyVal.tokens]
          have hmap : l.map pyStrip = l :=
            (List.map_congr_left (fun t ht => (htok t ht).1)).trans
              (List.map_id l)
          rw [hmap, List.filter_eq_self.mpr
            (fun t ht => by simpa using (htok t ht).2)]
        simp only [hstrip2]
        exact h

/-- Witness for C8 on a concrete successful run (tokens needing trimming). -/
theorem C8_strip_validate_idempotent_witness :
    processOrderBy ["count", "name"] "order_by"
        (.listV ["  -count ", "name", " "]) = .ok (.listV ["-count", "name"]) ∧
    processOrderBy ["count", "name"] "order_by" (.listV ["-count", "name"]) =
      .ok (.listV ["-count", "name"]) := by
  have h : processOrderBy ["count", "name"] "order_by"
      (.listV ["  -count ", "name", " "]) = .ok (.listV ["-count", "name"]) := by
    rfl
  exact ⟨h, C8_strip_validate_idempotent ["count", "name"] "order_by"
    (.listV ["  -count ", "name", " "]) (.listV ["-count", "name"]) h⟩

end FastapiFilter
